import Mathlib

/-!
Verification of the neocities-sync tree-diff and ignore-matching core.

The Python sources are embedded shallowly: `FileTree` is the list of
entries held by the `FileTree` class, `choose_action_for_pair` and
`sync_actions` follow `sync_actions.py`, the zip/emptiness queries follow
`filetree.py`, the policy pipeline follows `ignore_files.py`, and the
layered ignore matching follows `treepathspec.py`.  Python `str` methods
(`startswith`, `split("/")`, slicing, `upper`) are modelled as functions on
the character list of a `String`, so that every definition evaluates by
`decide`.
-/

namespace NeocitiesSync

/-- Models Python `s.startswith(pre)`: prefix test on the character sequence. -/
def strStartsWith (s pre : String) : Bool :=
  pre.data.isPrefixOf s.data

/-- Models Python slicing `s[n:]` (by characters). -/
def strDrop (s : String) (n : Nat) : String :=
  ⟨s.data.drop n⟩

/-- Helper of `splitOnSlash`: accumulates the current segment reversed. -/
def splitOnSlashGo : List Char → List Char → List String
  | [], acc => [⟨acc.reverse⟩]
  | '/' :: rest, acc => (⟨acc.reverse⟩ : String) :: splitOnSlashGo rest []
  | c :: rest, acc => splitOnSlashGo rest (c :: acc)

/-- Models Python `s.split("/")` (keeps empty segments, never returns an
empty list). -/
def splitOnSlash (s : String) : List String :=
  splitOnSlashGo s.data []

/-- Models Python `os.path.basename` on slash-separated paths: the part
after the last `/`. -/
def basenameStr (p : String) : String :=
  (splitOnSlash p).getLastD ""

/-- Models Python `"/".join(parts)`. -/
def joinSlash : List String → String
  | [] => ""
  | [x] => x
  | x :: y :: rest => x ++ "/" ++ joinSlash (y :: rest)

/-- Models ASCII `str.upper` on one character (the code only compares file
extensions, which are ASCII). -/
def strToUpper (s : String) : String :=
  ⟨s.data.map Char.toUpper⟩

/-- Models Python string `<`: lexicographic comparison of the character
sequences by code point. -/
def lexLt : List Char → List Char → Bool
  | [], [] => false
  | [], _ :: _ => true
  | _ :: _, [] => false
  | a :: as, b :: bs => if a < b then true else if b < a then false else lexLt as bs

/-- Python `<` on the two strings. -/
def strLt (a b : String) : Bool :=
  lexLt a.data b.data

/-- One file or directory of a tree (`FileTreeEntry` of `filetree.py`).
`size` and `sha1_hash` are `none` for directories, as in the source. -/
structure FileTreeEntry where
  path : String
  is_directory : Bool
  updated_at : String
  size : Option Nat := none
  sha1_hash : Option String := none
deriving DecidableEq

/-- A `FileTree` is the list `__files` the Python class holds. -/
abbrev FileTree := List FileTreeEntry

/-- `FileTree.find`: first entry whose path equals `path`, else `None`. -/
def find (t : FileTree) (path : String) : Option FileTreeEntry :=
  t.find? (fun f => f.path == path)

/-- The non-directory paths of a tree, in tree order (the list
comprehensions `self_paths` / `other_paths` inside `FileTree.zip`). -/
def filePaths (t : FileTree) : List String :=
  (t.filter (fun f => !f.is_directory)).map (fun f => f.path)

/-- Insert a string into a strictly sorted list, skipping duplicates. -/
def insertUnique (x : String) : List String → List String
  | [] => [x]
  | y :: ys =>
    if x = y then y :: ys
    else if strLt x y then x :: y :: ys
    else y :: insertUnique x ys

/-- Models Python `sorted(set(l))`: the strictly increasing list of the
distinct elements of `l`. -/
def sortedUnique (l : List String) : List String :=
  l.foldr insertUnique []

/-- The `all_paths` list of `FileTree.zip`: the sorted set-union of the
non-directory paths of the two trees. -/
def zipKeys (t o : FileTree) : List String :=
  sortedUnique (filePaths t ++ filePaths o)

/-- `FileTree.zip`: one `(self.find(path), other.find(path))` pair per key
path, in sorted key order. -/
def zipTrees (t o : FileTree) : List (Option FileTreeEntry × Option FileTreeEntry) :=
  (zipKeys t o).map (fun p => (find t p, find o p))

/-- `FileTree.is_empty_dir`: the path resolves to a directory entry and no
non-directory entry of the tree lies strictly under it. -/
def is_empty_dir (t : FileTree) (path : String) : Bool :=
  match find t path with
  | none => false
  | some d =>
    d.is_directory && t.all (fun f => !(strStartsWith f.path (path ++ "/") && !f.is_directory))

/-- `FileTree.list_empty_directories`: paths of the directory entries that
`is_empty_dir` accepts, in tree order. -/
def list_empty_directories (t : FileTree) : List String :=
  (t.filter (fun d => d.is_directory && is_empty_dir t d.path)).map (fun d => d.path)

/-- The `reason` strings of `sync_actions.py`, as a closed enumeration (one
constructor per distinct source string). -/
inductive Reason where
  /-- source string: File doesn&apos;t exist locally -/
  | fileMissingLocally
  /-- source string: File doesn&apos;t exist in remote -/
  | fileMissingInRemote
  /-- source string: Path is a directory in remote -/
  | pathIsDirectoryInRemote
  /-- source string: Path is a directory locally -/
  | pathIsDirectoryLocally
  /-- source string: Sizes differ -/
  | sizesDiffer
  /-- source string: SHA1 hashes don&apos;t match -/
  | sha1HashesDiffer
  /-- source string: No action needed -/
  | noActionNeeded
deriving DecidableEq

/-- The closed `SyncAction` variant of `sync_actions.py`: `DoNothing`,
`DeleteRemote` and `UpdateRemote`, each carrying a path and a reason. -/
inductive SyncAction where
  | DoNothing (path : String) (reason : Reason)
  | DeleteRemote (path : String) (reason : Reason)
  | UpdateRemote (path : String) (reason : Reason)
deriving DecidableEq

/-- The `path` attribute of a `SyncAction`. -/
def SyncAction.path : SyncAction → String
  | .DoNothing p _ => p
  | .DeleteRemote p _ => p
  | .UpdateRemote p _ => p

/-- `_choose_action_for_pair` of `sync_actions.py`: the pairwise decision,
with the branches in source order. -/
def choose_action_for_pair : Option FileTreeEntry → Option FileTreeEntry → List SyncAction
  | none, none => []
  | none, some remote => [.DeleteRemote remote.path .fileMissingLocally]
  | some l, none => [.UpdateRemote l.path .fileMissingInRemote]
  | some l, some r =>
    if l.is_directory && r.is_directory then []
    else if !l.is_directory && r.is_directory then
      [.DeleteRemote l.path .pathIsDirectoryInRemote,
       .UpdateRemote l.path .pathIsDirectoryInRemote]
    else if l.is_directory && !r.is_directory then
      [.DeleteRemote r.path .pathIsDirectoryLocally]
    else if l.size ≠ r.size then [.UpdateRemote l.path .sizesDiffer]
    else if l.sha1_hash ≠ r.sha1_hash then [.UpdateRemote l.path .sha1HashesDiffer]
    else [.DoNothing l.path .noActionNeeded]

/-- The body of the `sync_actions` generator: the per-pair action lists are
consumed in order with one running `deleted` list, a `DeleteRemote` whose
path lies under an already recorded path being skipped, any other
`DeleteRemote` being emitted and its path appended to `deleted`. -/
def suppressDeletes : List SyncAction → List String → List SyncAction
  | [], _ => []
  | .DeleteRemote p r :: rest, deleted =>
    if deleted.any (fun d => strStartsWith p (d ++ "/"))
    then suppressDeletes rest deleted
    else .DeleteRemote p r :: suppressDeletes rest (deleted ++ [p])
  | a :: rest, deleted => a :: suppressDeletes rest deleted

/-- The `deleted` list `suppressDeletes` ends with. -/
def suppressState : List SyncAction → List String → List String
  | [], deleted => deleted
  | .DeleteRemote p _ :: rest, deleted =>
    if deleted.any (fun d => strStartsWith p (d ++ "/"))
    then suppressState rest deleted
    else suppressState rest (deleted ++ [p])
  | _ :: rest, deleted => suppressState rest deleted

/-- `sync_actions` of `sync_actions.py`: the generator yields, pair by
zipped pair, the decided actions, suppressing deletions implied by an
already emitted ancestor deletion; the single mutable `deleted` list
threads through the concatenated per-pair action stream. -/
def sync_actions (l r : FileTree) : List SyncAction :=
  suppressDeletes ((zipTrees l r).flatMap (fun pr => choose_action_for_pair pr.1 pr.2)) []

/-- Modelled from the spec (section 4.5 stream assembly), inner loop: emit
the decided actions of one pair in order, maintaining the running set of
recorded deleted paths; a new `DeleteRemote` for `p` is suppressed and not
recorded exactly when a previously recorded `d` has `p` starting with
`d ++ "/"`; `UpdateRemote` and `DoNothing` are never suppressed. -/
def processActions : List SyncAction → List String → List SyncAction × List String
  | [], recorded => ([], recorded)
  | .DeleteRemote p r :: rest, recorded =>
    if recorded.any (fun d => strStartsWith p (d ++ "/"))
    then processActions rest recorded
    else
      let out := processActions rest (recorded ++ [p])
      (.DeleteRemote p r :: out.1, out.2)
  | a :: rest, recorded =>
    let out := processActions rest recorded
    (a :: out.1, out.2)

/-- Modelled from the spec (section 4.5), outer loop: consume the pairing
in its order, invoking the pairwise decision and emitting each pair's
actions through `processActions`. -/
def planPairs : List (Option FileTreeEntry × Option FileTreeEntry) → List String → List SyncAction
  | [], _ => []
  | pr :: rest, recorded =>
    let out := processActions (choose_action_for_pair pr.1 pr.2) recorded
    out.1 ++ planPairs rest out.2

/-- Modelled from the spec (section 4.5): `plan(localTree, remoteTree)`
consumes `localTree.zip(remoteTree)` with an initially empty recorded set. -/
def planSpec (l r : FileTree) : List SyncAction :=
  planPairs (zipTrees l r) []

/-- `file_extension` of `utils.py` (`os.path.splitext(file)[1]`): the
suffix of the basename from its last dot, but empty when every character
of the basename before that dot is itself a dot. -/
def file_extension (file : String) : String :=
  let b := (basenameStr file).data
  let rest := b.dropWhile (fun c => c = '.')
  if rest.contains '.'
  then ⟨'.' :: (rest.reverse.takeWhile (fun c => c ≠ '.')).reverse⟩
  else ""

/-- `path_match_any_element` of `utils.py`: some `/`-separated segment of
the path satisfies the condition. -/
def path_match_any_element (path : String) (condition : String → Bool) : Bool :=
  (splitOnSlash path).any condition

/-- The fields of `SiteConfig` the ignore filter reads.  The Python
defaults make the three policy flags plain booleans by the time `filter`
runs. -/
structure SiteConfig where
  sync_disallowed : Bool
  sync_hidden : Bool
  sync_vcs : Bool
  allowed_extensions : Option (List String)
deriving DecidableEq

/-- The built-in `allowed_extensions` string of `ignore_files.py`, already
split on whitespace. -/
def allowed_extensions_default : List String :=
  ["asc", "atom", "bin", "css", "csv", "dae", "eot", "epub", "geojson", "gif",
   "gltf", "htm", "html", "ico", "jpeg", "jpg", "js", "json", "key", "kml",
   "knowl", "less", "manifest", "markdown", "md", "mf", "mid", "midi", "mtl",
   "obj", "opml", "otf", "pdf", "pgp", "png", "rdf", "rss", "sass", "scss",
   "svg", "text", "tsv", "ttf", "txt", "webapp", "webmanifest", "webp",
   "woff", "woff2", "xcf", "xml"]

/-- The `vcs_files` set of `ignore_files.py`. -/
def vcs_files : List String := [".git", ".hg", ".svn", ".bzr"]

/-- One configured or built-in extension, normalized as in the source:
leading dots stripped, uppercased, one dot prepended. -/
def normExt (ext : String) : String :=
  "." ++ strToUpper ⟨ext.data.dropWhile (fun c => c = '.')⟩

/-- The `exts` set the extension step of `IgnoreFiles.filter` builds. -/
def extAllowList (cfg : SiteConfig) : List String :=
  (cfg.allowed_extensions.getD allowed_extensions_default).map normExt

/-- The extension-step predicate of `IgnoreFiles.filter`: directories pass,
files pass when their uppercased extension is in the allow list. -/
def extensionAllowed (cfg : SiteConfig) (f : FileTreeEntry) : Bool :=
  f.is_directory || (extAllowList cfg).contains (strToUpper (file_extension f.path))

/-- `_add_slash` of `treepathspec.py`. -/
def add_slash (path : String) : String :=
  if path = "." then "/"
  else if strStartsWith path "./" then strDrop path 1
  else if !strStartsWith path "/" then "/" ++ path
  else path

/-- The non-empty `/`-separated components of a normalized path. -/
def splitSlash (s : String) : List String :=
  (splitOnSlash s).filter (fun c => c ≠ "")

/-- Length of the longest common prefix of two component lists. -/
def commonPrefixLen : List String → List String → Nat
  | a :: as, b :: bs => if a = b then commonPrefixLen as bs + 1 else 0
  | _, _ => 0

/-- Models `os.path.relpath(path, start)` for slash-normalized absolute
inputs (the only inputs `TreePathSpec.match` produces after `_add_slash`),
where the stdlib function is purely lexical: walk up from `start` to the
common prefix and down into `path`. -/
def relpath (path start : String) : String :=
  let p := splitSlash path
  let s := splitSlash start
  let k := commonPrefixLen s p
  let parts := List.replicate (s.length - k) ".." ++ p.drop k
  if parts.isEmpty then "." else joinSlash parts

/-- Fuel-indexed glob matcher; the fuel only bounds the recursion depth and
`globMatch` always supplies enough. `*` and `?` do not cross `/`. -/
def globMatchAux : Nat → List Char → List Char → Bool
  | 0, _, _ => false
  | _ + 1, [], s => s.isEmpty
  | fuel + 1, '*' :: pt, [] => globMatchAux fuel pt []
  | fuel + 1, '*' :: pt, c :: ct =>
    globMatchAux fuel pt (c :: ct) || (c != '/' && globMatchAux fuel ('*' :: pt) ct)
  | _ + 1, _ :: _, [] => false
  | fuel + 1, q :: pt, c :: ct =>
    ((q == c) || (q == '?' && c != '/')) && globMatchAux fuel pt ct

/-- Glob match of a pattern against a string, `*`/`?` never matching `/`. -/
def globMatch (p s : List Char) : Bool :=
  globMatchAux (p.length + s.length + 1) p s

/-- Modelled from the spec: one gitwildmatch pattern of the external
`pathspec` library (absent from `src/`), per section 4.1: a `/`-anchored
pattern, or any pattern containing a separator, matches from the scope
root; a pattern without a separator matches the basename at any depth.
`path` is the `_add_slash`-normalized relative path. -/
def patMatches (pat : String) (path : String) : Bool :=
  let p := if strStartsWith pat "/" then strDrop pat 1 else pat
  let target := if strStartsWith path "/" then strDrop path 1 else path
  if p.data.contains '/' then globMatch p.data target.data
  else globMatch p.data (basenameStr target).data

/-- Modelled from the spec: `PathSpec.match_file` of the external
`pathspec` library, per section 4.1: patterns are evaluated in file order,
a later matching pattern&apos;s verdict overrides an earlier one, a `!`
pattern negates (un-ignores); a path no pattern matches is not ignored. -/
def match_file (lines : List String) (path : String) : Bool :=
  (lines.foldl
    (fun v line =>
      let neg := strStartsWith line "!"
      let pat := if neg then strDrop line 1 else line
      if patMatches pat path then some (!neg) else v)
    none).getD false

/-- `TreePathSpec.match` of `treepathspec.py`: try each `(root, spec)` of
the pathspec list in list order; for the first whose relative path does not
escape the scope (`../`) and whose rule set matches the `_add_slash`-ed
relative path, return true; otherwise false. -/
def treePathSpecMatch (pathspec_list : List (String × List String)) (file : String) : Bool :=
  pathspec_list.any (fun rs =>
    !strStartsWith (relpath file rs.1) "../" &&
      match_file rs.2 (add_slash (relpath file rs.1)))

/-- `IgnoreFiles.filter` of `ignore_files.py`: the five policy steps in
source order, each producing a new tree from the previous step. -/
def ignoreFilesFilter (cfg : SiteConfig) (pathspec_list : List (String × List String))
    (tree : FileTree) : FileTree :=
  let t1 := tree.filter (fun f => basenameStr f.path != ".neocitiesignore")
  let t2 := if !cfg.sync_disallowed then t1.filter (fun f => extensionAllowed cfg f) else t1
  let t3 := t2.filter (fun f => !treePathSpecMatch pathspec_list f.path)
  let t4 := if !cfg.sync_hidden
    then t3.filter (fun f => !path_match_any_element f.path (fun p => strStartsWith p "."))
    else t3
  let t5 := if !cfg.sync_vcs
    then t4.filter (fun f => !path_match_any_element f.path (fun p => vcs_files.contains p))
    else t4
  t5

/-! ## Helper lemmas about `find` and `filePaths` -/

theorem find_some_path {T : FileTree} {q : String} {e : FileTreeEntry}
    (h : find T q = some e) : e.path = q := by
  have := List.find?_some h
  simpa [beq_iff_eq] using this

theorem find_mem {T : FileTree} {q : String} {e : FileTreeEntry}
    (h : find T q = some e) : e ∈ T :=
  List.mem_of_find?_eq_some h

theorem mem_filePaths {T : FileTree} {p : String} :
    p ∈ filePaths T ↔ ∃ e ∈ T, e.is_directory = false ∧ e.path = p := by
  simp only [filePaths, List.mem_map, List.mem_filter, Bool.not_eq_true']
  constructor
  · rintro ⟨e, ⟨he, hd⟩, hp⟩; exact ⟨e, he, hd, hp⟩
  · rintro ⟨e, he, hd, hp⟩; exact ⟨e, ⟨he, hd⟩, hp⟩

theorem find_of_filePath {T : FileTree} {p : String} (h : p ∈ filePaths T) :
    ∃ e, find T p = some e ∧ e.path = p := by
  obtain ⟨e, he, -, hp⟩ := mem_filePaths.mp h
  have hsome : (find T p).isSome = true := by
    rw [find, List.find?_isSome]
    exact ⟨e, he, by simp [beq_iff_eq, hp]⟩
  obtain ⟨e', he'⟩ := Option.isSome_iff_exists.mp hsome
  exact ⟨e', he', find_some_path he'⟩

theorem find_eq_none_iff {T : FileTree} {p : String} :
    find T p = none ↔ ∀ e ∈ T, e.path ≠ p := by
  rw [find, List.find?_eq_none]
  simp [beq_iff_eq]

/-! ## C1: the pairwise decision table -/

/-- C1: `_choose_action_for_pair` returns exactly the action sequence of
the precedence table: both absent gives nothing; one absent gives a single
`DeleteRemote` resp. `UpdateRemote`; two directories give nothing; file
versus remote directory gives delete-then-update; local directory versus
remote file gives a single delete; two files compare size first, then
hash, and give a single `DoNothing` when identical. -/
theorem claim1 :
    (choose_action_for_pair none none = []) ∧
    (∀ r : FileTreeEntry, choose_action_for_pair none (some r) =
      [.DeleteRemote r.path .fileMissingLocally]) ∧
    (∀ l : FileTreeEntry, choose_action_for_pair (some l) none =
      [.UpdateRemote l.path .fileMissingInRemote]) ∧
    (∀ l r : FileTreeEntry, l.is_directory = true → r.is_directory = true →
      choose_action_for_pair (some l) (some r) = []) ∧
    (∀ l r : FileTreeEntry, l.is_directory = false → r.is_directory = true →
      choose_action_for_pair (some l) (some r) =
        [.DeleteRemote l.path .pathIsDirectoryInRemote,
         .UpdateRemote l.path .pathIsDirectoryInRemote]) ∧
    (∀ l r : FileTreeEntry, l.is_directory = true → r.is_directory = false →
      choose_action_for_pair (some l) (some r) =
        [.DeleteRemote r.path .pathIsDirectoryLocally]) ∧
    (∀ l r : FileTreeEntry, l.is_directory = false → r.is_directory = false →
      l.size ≠ r.size →
      choose_action_for_pair (some l) (some r) = [.UpdateRemote l.path .sizesDiffer]) ∧
    (∀ l r : FileTreeEntry, l.is_directory = false → r.is_directory = false →
      l.size = r.size → l.sha1_hash ≠ r.sha1_hash →
      choose_action_for_pair (some l) (some r) = [.UpdateRemote l.path .sha1HashesDiffer]) ∧
    (∀ l r : FileTreeEntry, l.is_directory = false → r.is_directory = false →
      l.size = r.size → l.sha1_hash = r.sha1_hash →
      choose_action_for_pair (some l) (some r) = [.DoNothing l.path .noActionNeeded]) := by
  refine ⟨rfl, fun r => rfl, fun l => rfl, ?_, ?_, ?_, ?_, ?_, ?_⟩
  · intro l r hl hr; simp [choose_action_for_pair, hl, hr]
  · intro l r hl hr; simp [choose_action_for_pair, hl, hr]
  · intro l r hl hr; simp [choose_action_for_pair, hl, hr]
  · intro l r hl hr hs; simp [choose_action_for_pair, hl, hr, hs]
  · intro l r hl hr hs hh; simp [choose_action_for_pair, hl, hr, hs, hh]
  · intro l r hl hr hs hh; simp [choose_action_for_pair, hl, hr, hs, hh]

/-! ## C3: layered ignore matching -/

/-- The C3 scenario: an ignore file at the root holding `*.log` and an
ignore file in `keep/` holding `!important.log`, as `TreePathSpec.load`
assembles them (sorted by scope, descending). -/
def claim3Specs : List (String × List String) :=
  [("/keep", ["!important.log"]), ("/", ["*.log"])]

/-- C3 (the code, at the claimed scenario): `TreePathSpec.match` returns
true for `keep/important.log` as well as for `other/debug.log` — the
nested negation yields no verdict in its own scope, the walk falls
through to the root scope, and `*.log` matches there; the claimed result
(false for `keep/important.log`) does not hold. -/
theorem claim3_code_eval :
    treePathSpecMatch claim3Specs "/keep/important.log" = true ∧
    treePathSpecMatch claim3Specs "/other/debug.log" = true := by decide

/-! ## C7: emptiness queries -/

/-- C7: `is_empty_dir` holds exactly when the path resolves via `find` to
a directory entry and no non-directory entry lies strictly under it; and
every directory entry it accepts is listed by `list_empty_directories`. -/
theorem claim7 (t : FileTree) (p : String) :
    (is_empty_dir t p = true ↔
      ((∃ e, find t p = some e ∧ e.is_directory = true) ∧
       ∀ e ∈ t, e.is_directory = false → strStartsWith e.path (p ++ "/") = false)) ∧
    (∀ e ∈ t, e.is_directory = true → is_empty_dir t e.path = true →
      e.path ∈ list_empty_directories t) := by
  constructor
  · cases h : find t p with
    | none =>
      simp only [is_empty_dir, h]
      constructor
      · intro hfalse; cases hfalse
      · rintro ⟨⟨e, he, -⟩, -⟩; cases he
    | some d =>
      simp only [is_empty_dir, h, Bool.and_eq_true, List.all_eq_true]
      constructor
      · rintro ⟨hd, hall⟩
        refine ⟨⟨d, rfl, hd⟩, ?_⟩
        intro e he hed
        have := hall e he
        simpa [hed] using this
      · rintro ⟨⟨e, heq, hdir⟩, hfiles⟩
        have hde : d = e := by injection heq
        subst hde
        refine ⟨hdir, ?_⟩
        intro f hf
        by_cases hfd : f.is_directory = true
        · simp [hfd]
        · have hfd' : f.is_directory = false := by simpa using hfd
          simp [hfd', hfiles f hf hfd']
  · intro e he hd hemp
    unfold list_empty_directories
    exact List.mem_map_of_mem _ (List.mem_filter.mpr ⟨he, by simp [hd, hemp]⟩)

/-! ## C9: the ignore-filter pipeline -/

/-- C9: the five-step policy pipeline of `IgnoreFiles.filter` keeps
exactly the entries satisfying the conjunction of the five step
predicates: not the ignore file itself; extension allowed unless
`sync_disallowed`; not matched by the layered pathspec; no hidden segment
unless `sync_hidden`; no VCS segment unless `sync_vcs`. -/
theorem claim9 (cfg : SiteConfig) (specs : List (String × List String)) (tree : FileTree) :
    ignoreFilesFilter cfg specs tree = tree.filter (fun f =>
      (basenameStr f.path != ".neocitiesignore") &&
      (cfg.sync_disallowed || extensionAllowed cfg f) &&
      (!treePathSpecMatch specs f.path) &&
      (cfg.sync_hidden || !path_match_any_element f.path (fun p => strStartsWith p ".")) &&
      (cfg.sync_vcs || !path_match_any_element f.path (fun p => vcs_files.contains p))) := by
  have stage : ∀ (b : Bool) (l : FileTree) (p : FileTreeEntry → Bool),
      (if !b then l.filter p else l) = l.filter (fun a => b || p a) := by
    intro b l p
    cases b
    · exact List.filter_congr (fun a _ => (Bool.false_or (p a)).symm)
    · exact (List.filter_true l).symm.trans (List.filter_congr (fun a _ => rfl))
  simp only [ignoreFilesFilter]
  rw [stage, stage, stage, List.filter_filter, List.filter_filter, List.filter_filter,
    List.filter_filter]
  refine List.filter_congr (fun a _ => ?_)
  cases cfg.sync_disallowed <;> cases cfg.sync_hidden <;> cases cfg.sync_vcs <;>
    cases basenameStr a.path != ".neocitiesignore" <;>
    cases extensionAllowed cfg a <;>
    cases treePathSpecMatch specs a.path <;>
    cases path_match_any_element a.path (fun p => strStartsWith p ".") <;>
    cases path_match_any_element a.path (fun p => vcs_files.contains p) <;>
    rfl

/-! ## C10: dotfiles have no extension and fail the allow-list step -/

theorem mem_of_ite_filter {a : FileTreeEntry} {b : Bool} {l : FileTree}
    {pred : FileTreeEntry → Bool}
    (h : a ∈ (if b = true then l.filter pred else l)) : a ∈ l := by
  cases b with
  | true => exact (List.mem_filter.mp (by simpa using h)).1
  | false => simpa using h

/-- C10: a basename that starts with `.` and has no further dot yields
the empty extension; a non-directory entry with such a path therefore
fails the extension step (whatever the allow list holds), and when
`sync_disallowed` is off the pipeline drops it — whatever `sync_hidden`
says. -/
theorem claim10 (p : String) (t : List Char)
    (hb : (basenameStr p).data = '.' :: t) (ht : '.' ∉ t) :
    file_extension p = "" ∧
    (∀ (cfg : SiteConfig) (f : FileTreeEntry), f.is_directory = false → f.path = p →
      extensionAllowed cfg f = false) ∧
    (∀ (cfg : SiteConfig) (specs : List (String × List String)) (tree : FileTree)
        (f : FileTreeEntry), cfg.sync_disallowed = false → f.is_directory = false →
      f.path = p → f ∉ ignoreFilesFilter cfg specs tree) := by
  have hext : file_extension p = "" := by
    unfold file_extension
    rw [hb]
    have hdrop : t.dropWhile (fun c => c = '.') = t := by
      cases t with
      | nil => rfl
      | cons c cs =>
        have : c ≠ '.' := fun hc => ht (hc ▸ List.mem_cons_self c cs)
        simp [List.dropWhile_cons, this]
    simp [hdrop, ht]
  have hallow : ∀ (cfg : SiteConfig) (f : FileTreeEntry), f.is_directory = false →
      f.path = p → extensionAllowed cfg f = false := by
    intro cfg f hdir hp
    unfold extensionAllowed
    rw [hdir, hp, hext]
    have hup : strToUpper "" = "" := rfl
    rw [hup]
    simp only [Bool.false_or]
    by_contra hcon
    have hctrue : (extAllowList cfg).contains "" = true := by
      cases h : (extAllowList cfg).contains ""
      · exact absurd h hcon
      · rfl
    have hmem : ("" : String) ∈ extAllowList cfg := List.elem_iff.mp hctrue
    obtain ⟨e, -, he⟩ := List.mem_map.mp hmem
    have hdata := congrArg String.data he
    rw [normExt, String.data_append, show ("." : String).data = ['.'] from rfl] at hdata
    exact absurd hdata (by exact List.cons_ne_nil _ _)
  refine ⟨hext, hallow, ?_⟩
  intro cfg specs tree f hdis hdir hp hmem
  unfold ignoreFilesFilter at hmem
  rw [hdis] at hmem
  have hmem4 := mem_of_ite_filter hmem
  have hmem3 := mem_of_ite_filter hmem4
  have hmem2 := List.mem_filter.mp hmem3
  have hmem1 : f ∈ (tree.filter (fun f => basenameStr f.path != ".neocitiesignore")).filter
      (fun f => extensionAllowed cfg f) := by
    simpa using hmem2.1
  have := (List.mem_filter.mp hmem1).2
  rw [hallow cfg f hdir hp] at this
  cases this

/-! ## String order: `strLt` agrees with the lexicographic order -/

theorem lexLt_iff : ∀ (as bs : List Char), lexLt as bs = true ↔ List.Lex (· < ·) as bs
  | [], [] => by
    simp only [lexLt]
    constructor
    · intro h; cases h
    · intro h; cases h
  | [], _ :: _ => by
    simp only [lexLt]
    exact iff_of_true trivial List.Lex.nil
  | _ :: _, [] => by
    simp only [lexLt]
    constructor
    · intro h; cases h
    · intro h; cases h
  | a :: as, b :: bs => by
    simp only [lexLt]
    rcases lt_trichotomy a b with h | h | h
    · simp only [h, if_true]
      exact iff_of_true trivial (List.Lex.rel h)
    · subst h
      simp only [lt_irrefl, if_false]
      rw [lexLt_iff as bs]
      exact List.Lex.cons_iff.symm
    · have h1 : ¬ a < b := lt_asymm h
      simp only [h1, h, if_true, if_false]
      constructor
      · intro hf; cases hf
      · intro hlex
        cases hlex with
        | rel h' => exact absurd h' h1
        | cons _ => exact absurd rfl (ne_of_gt h)

theorem strLt_iff {a b : String} : strLt a b = true ↔ a < b := by
  rw [String.lt_iff_toList_lt]
  exact lexLt_iff a.data b.data

theorem lex_lt_append (c : Char) (rest : List Char) :
    ∀ l : List Char, List.Lex (· < ·) l (l ++ c :: rest)
  | [] => List.Lex.nil
  | _ :: l => List.Lex.cons (lex_lt_append c rest l)

theorem str_lt_append_sep (s x : String) : s < s ++ "/" ++ x := by
  rw [String.append_assoc, String.lt_iff_toList_lt]
  have hdata : (s ++ ("/" ++ x)).toList = s.toList ++ '/' :: x.data := by
    show (s ++ ("/" ++ x)).data = s.data ++ '/' :: x.data
    rw [String.data_append, String.data_append]
    rfl
  rw [hdata]
  exact lex_lt_append '/' x.data s.toList

/-! ## `sortedUnique` is the sorted set-union -/

theorem mem_insertUnique {z x : String} :
    ∀ {l : List String}, z ∈ insertUnique x l ↔ z = x ∨ z ∈ l := by
  intro l
  induction l with
  | nil => simp [insertUnique]
  | cons y ys ih =>
    unfold insertUnique
    split_ifs with h1 h2
    · subst h1; simp [List.mem_cons]
    · simp [List.mem_cons]
    · simp only [List.mem_cons, ih]; tauto

theorem pairwise_insertUnique {x : String} :
    ∀ {l : List String}, l.Pairwise (· < ·) → (insertUnique x l).Pairwise (· < ·) := by
  intro l
  induction l with
  | nil => intro _; simp [insertUnique]
  | cons y ys ih =>
    intro hp
    rw [List.pairwise_cons] at hp
    obtain ⟨hy, hys⟩ := hp
    unfold insertUnique
    split_ifs with h1 h2
    · exact List.pairwise_cons.mpr ⟨hy, hys⟩
    · have hxy : x < y := strLt_iff.mp h2
      refine List.pairwise_cons.mpr ⟨?_, List.pairwise_cons.mpr ⟨hy, hys⟩⟩
      intro z hz
      rcases List.mem_cons.mp hz with rfl | hz'
      · exact hxy
      · exact lt_trans hxy (hy z hz')
    · have hyx : y < x := by
        rcases lt_trichotomy x y with h | h | h
        · exact absurd (strLt_iff.mpr h) h2
        · exact absurd h h1
        · exact h
      refine List.pairwise_cons.mpr ⟨?_, ih hys⟩
      intro z hz
      rcases mem_insertUnique.mp hz with rfl | hz'
      · exact hyx
      · exact hy z hz'

theorem pairwise_sortedUnique (l : List String) : (sortedUnique l).Pairwise (· < ·) := by
  unfold sortedUnique
  induction l with
  | nil => simp
  | cons x xs ih => exact pairwise_insertUnique ih

theorem mem_sortedUnique {z : String} : ∀ {l : List String}, z ∈ sortedUnique l ↔ z ∈ l := by
  intro l
  induction l with
  | nil => simp [sortedUnique]
  | cons x xs ih =>
    show z ∈ insertUnique x (sortedUnique xs) ↔ _
    rw [mem_insertUnique, ih]
    simp [List.mem_cons]

theorem mem_zipKeys {t o : FileTree} {p : String} :
    p ∈ zipKeys t o ↔ p ∈ filePaths t ∨ p ∈ filePaths o := by
  unfold zipKeys
  rw [mem_sortedUnique, List.mem_append]

/-! ## C5: the zip pairing -/

/-- C5: `FileTree.zip` produces one `(find, find)` pair per path in the
union of the non-directory paths of the two trees, with the key list
strictly sorted in ascending lexicographic order; hence whenever both a
path and a path strictly under it are keys, the shorter one comes first. -/
theorem claim5 (t o : FileTree) :
    zipTrees t o = (zipKeys t o).map (fun p => (find t p, find o p)) ∧
    (∀ p, p ∈ zipKeys t o ↔ (p ∈ filePaths t ∨ p ∈ filePaths o)) ∧
    (zipKeys t o).Pairwise (· < ·) ∧
    ∀ (i j : Fin (zipKeys t o).length) (x : String),
      (zipKeys t o).get j = (zipKeys t o).get i ++ "/" ++ x → (i : Nat) < (j : Nat) := by
  refine ⟨rfl, fun p => mem_zipKeys, pairwise_sortedUnique _, ?_⟩
  intro i j x h
  by_contra hn
  have hle : (j : Nat) ≤ (i : Nat) := Nat.le_of_not_lt hn
  have hlt : (zipKeys t o).get i < (zipKeys t o).get j := by
    rw [h]
    exact str_lt_append_sep _ _
  rcases Nat.eq_or_lt_of_le hle with heq | hji
  · have hJI : j = i := Fin.ext heq
    rw [hJI] at hlt
    exact lt_irrefl _ hlt
  · have h2 : (zipKeys t o).get j < (zipKeys t o).get i :=
      List.pairwise_iff_get.mp (pairwise_sortedUnique _) j i hji
    exact absurd hlt (lt_asymm h2)

/-! ## C8: every zip pair is inhabited and has a file side -/

theorem find_filePath_of_nodup {T : FileTree} (h : (T.map (fun f => f.path)).Nodup)
    {p : String} (hp : p ∈ filePaths T) :
    ∃ e, find T p = some e ∧ e.path = p ∧ e.is_directory = false := by
  obtain ⟨e0, he0, hd0, hp0⟩ := mem_filePaths.mp hp
  obtain ⟨e, he, hpe⟩ := find_of_filePath hp
  have heq : e = e0 := List.inj_on_of_nodup_map h (find_mem he) he0 (by rw [hpe, hp0])
  exact ⟨e, he, hpe, heq ▸ hd0⟩

/-- C8: when no two entries of one tree share a path, every pair `zip`
produces has a non-absent component and a component holding a
non-directory entry; in particular the absent/absent case and the
directory-versus-directory case of the pairwise decision never arise, so
those branches of `_choose_action_for_pair` are defensive dead code. -/
theorem claim8 (L R : FileTree)
    (hL : (L.map (fun f => f.path)).Nodup) (hR : (R.map (fun f => f.path)).Nodup) :
    ∀ pr ∈ zipTrees L R,
      (pr.1.isSome || pr.2.isSome) = true ∧
      (∃ e : FileTreeEntry, (pr.1 = some e ∨ pr.2 = some e) ∧ e.is_directory = false) ∧
      ¬(pr.1 = none ∧ pr.2 = none) ∧
      ¬(∃ l r : FileTreeEntry, pr.1 = some l ∧ pr.2 = some r ∧
          l.is_directory = true ∧ r.is_directory = true) := by
  intro pr hpr
  obtain ⟨p, hpk, rfl⟩ := List.mem_map.mp hpr
  dsimp only
  rcases mem_zipKeys.mp hpk with hp | hp
  · obtain ⟨e, he, -, hde⟩ := find_filePath_of_nodup hL hp
    refine ⟨by simp [he], ⟨e, Or.inl he, hde⟩, ?_, ?_⟩
    · rintro ⟨h1, -⟩
      rw [he] at h1
      cases h1
    · rintro ⟨l, r, h1, -, hld, -⟩
      rw [he] at h1
      have : e = l := by injection h1
      rw [← this, hde] at hld
      cases hld
  · obtain ⟨e, he, -, hde⟩ := find_filePath_of_nodup hR hp
    refine ⟨by simp [he], ⟨e, Or.inr he, hde⟩, ?_, ?_⟩
    · rintro ⟨-, h2⟩
      rw [he] at h2
      cases h2
    · rintro ⟨l, r, -, h2, -, hrd⟩
      rw [he] at h2
      have : e = r := by injection h2
      rw [← this, hde] at hrd
      cases hrd

/-- Concrete trees for the C8 witness. -/
def w8L : FileTree := [⟨"a", false, "", some 1, some "aa"⟩]

/-- Concrete trees for the C8 witness. -/
def w8R : FileTree := []

/-- Witness for C8 at a concrete pair of trees. -/
theorem claim8_witness :
    ((find w8L "a", find w8R "a").1.isSome || (find w8L "a", find w8R "a").2.isSome) = true ∧
    (∃ e : FileTreeEntry, ((find w8L "a", find w8R "a").1 = some e ∨
        (find w8L "a", find w8R "a").2 = some e) ∧ e.is_directory = false) ∧
    ¬((find w8L "a", find w8R "a").1 = none ∧ (find w8L "a", find w8R "a").2 = none) ∧
    ¬(∃ l r : FileTreeEntry, (find w8L "a", find w8R "a").1 = some l ∧
        (find w8L "a", find w8R "a").2 = some r ∧
        l.is_directory = true ∧ r.is_directory = true) :=
  claim8 w8L w8R (by decide) (by decide) (find w8L "a", find w8R "a") (by decide)

/-! ## Unfolding equations for the suppression pass -/

theorem suppressDeletes_delete (p : String) (r : Reason) (rest : List SyncAction)
    (d : List String) :
    suppressDeletes (.DeleteRemote p r :: rest) d =
      if d.any (fun d0 => strStartsWith p (d0 ++ "/"))
      then suppressDeletes rest d
      else .DeleteRemote p r :: suppressDeletes rest (d ++ [p]) := rfl

theorem suppressDeletes_doNothing (p : String) (r : Reason) (rest : List SyncAction)
    (d : List String) :
    suppressDeletes (.DoNothing p r :: rest) d = .DoNothing p r :: suppressDeletes rest d := rfl

theorem suppressDeletes_update (p : String) (r : Reason) (rest : List SyncAction)
    (d : List String) :
    suppressDeletes (.UpdateRemote p r :: rest) d =
      .UpdateRemote p r :: suppressDeletes rest d := rfl

theorem suppressState_delete (p : String) (r : Reason) (rest : List SyncAction)
    (d : List String) :
    suppressState (.DeleteRemote p r :: rest) d =
      if d.any (fun d0 => strStartsWith p (d0 ++ "/"))
      then suppressState rest d
      else suppressState rest (d ++ [p]) := rfl

theorem suppressState_doNothing (p : String) (r : Reason) (rest : List SyncAction)
    (d : List String) :
    suppressState (.DoNothing p r :: rest) d = suppressState rest d := rfl

theorem suppressState_update (p : String) (r : Reason) (rest : List SyncAction)
    (d : List String) :
    suppressState (.UpdateRemote p r :: rest) d = suppressState rest d := rfl

theorem processActions_delete (p : String) (r : Reason) (rest : List SyncAction)
    (d : List String) :
    processActions (.DeleteRemote p r :: rest) d =
      if d.any (fun d0 => strStartsWith p (d0 ++ "/"))
      then processActions rest d
      else (.DeleteRemote p r :: (processActions rest (d ++ [p])).1,
            (processActions rest (d ++ [p])).2) := rfl

theorem processActions_doNothing (p : String) (r : Reason) (rest : List SyncAction)
    (d : List String) :
    processActions (.DoNothing p r :: rest) d =
      (.DoNothing p r :: (processActions rest d).1, (processActions rest d).2) := rfl

theorem processActions_update (p : String) (r : Reason) (rest : List SyncAction)
    (d : List String) :
    processActions (.UpdateRemote p r :: rest) d =
      (.UpdateRemote p r :: (processActions rest d).1, (processActions rest d).2) := rfl

/-- Whatever the suppression pass emits was in its input. -/
theorem suppress_subset : ∀ (l : List SyncAction) (d : List String) (a : SyncAction),
    a ∈ suppressDeletes l d → a ∈ l := by
  intro l
  induction l with
  | nil => intro d a h; cases h
  | cons x rest ih =>
    intro d a h
    cases x with
    | DeleteRemote p r =>
      rw [suppressDeletes_delete] at h
      split_ifs at h with hc
      · exact List.mem_cons_of_mem _ (ih d a h)
      · rcases List.mem_cons.mp h with rfl | h'
        · exact List.mem_cons_self _ _
        · exact List.mem_cons_of_mem _ (ih _ a h')
    | DoNothing p r =>
      rw [suppressDeletes_doNothing] at h
      rcases List.mem_cons.mp h with rfl | h'
      · exact List.mem_cons_self _ _
      · exact List.mem_cons_of_mem _ (ih d a h')
    | UpdateRemote p r =>
      rw [suppressDeletes_update] at h
      rcases List.mem_cons.mp h with rfl | h'
      · exact List.mem_cons_self _ _
      · exact List.mem_cons_of_mem _ (ih d a h')

/-- The suppression pass distributes over append, threading its state. -/
theorem suppress_append : ∀ (l₁ l₂ : List SyncAction) (d : List String),
    suppressDeletes (l₁ ++ l₂) d =
      suppressDeletes l₁ d ++ suppressDeletes l₂ (suppressState l₁ d) := by
  intro l₁
  induction l₁ with
  | nil => intro l₂ d; rfl
  | cons x rest ih =>
    intro l₂ d
    cases x with
    | DeleteRemote p r =>
      rw [List.cons_append, suppressDeletes_delete, suppressDeletes_delete,
        suppressState_delete]
      split_ifs with hc
      · exact ih l₂ d
      · rw [List.cons_append, ih l₂ (d ++ [p])]
    | DoNothing p r =>
      rw [List.cons_append, suppressDeletes_doNothing, suppressDeletes_doNothing,
        suppressState_doNothing, List.cons_append, ih l₂ d]
    | UpdateRemote p r =>
      rw [List.cons_append, suppressDeletes_update, suppressDeletes_update,
        suppressState_update, List.cons_append, ih l₂ d]

/-- The spec-modelled per-pair loop computes the same emission and the same
recorded set as the flattened single pass. -/
theorem processActions_eq : ∀ (l : List SyncAction) (d : List String),
    processActions l d = (suppressDeletes l d, suppressState l d) := by
  intro l
  induction l with
  | nil => intro d; rfl
  | cons x rest ih =>
    intro d
    cases x with
    | DeleteRemote p r =>
      rw [processActions_delete, suppressDeletes_delete, suppressState_delete]
      split_ifs with hc
      · exact ih d
      · rw [ih (d ++ [p])]
    | DoNothing p r =>
      rw [processActions_doNothing, suppressDeletes_doNothing, suppressState_doNothing, ih d]
    | UpdateRemote p r =>
      rw [processActions_update, suppressDeletes_update, suppressState_update, ih d]

theorem planPairs_eq :
    ∀ (prs : List (Option FileTreeEntry × Option FileTreeEntry)) (d : List String),
    planPairs prs d =
      suppressDeletes (prs.flatMap (fun pr => choose_action_for_pair pr.1 pr.2)) d := by
  intro prs
  induction prs with
  | nil => intro d; rfl
  | cons pr rest ih =>
    intro d
    show (processActions (choose_action_for_pair pr.1 pr.2) d).1 ++
        planPairs rest (processActions (choose_action_for_pair pr.1 pr.2) d).2 = _
    rw [processActions_eq, List.flatMap_cons, suppress_append, ih]

/-! ## C2: the stream assembly follows the spec wording -/

/-- C2: `sync_actions` equals the plan written from the spec wording: the
zip pairing consumed in order, each pair's decided actions emitted in
order, one running recorded set of deleted paths, a new `DeleteRemote`
for `p` suppressed and unrecorded exactly when a previously recorded `d`
has `p` starting with `d ++ "/"`, `UpdateRemote` and `DoNothing` never
suppressed. -/
theorem claim2 (L R : FileTree) : sync_actions L R = planSpec L R := by
  unfold sync_actions planSpec
  exact (planPairs_eq (zipTrees L R) []).symm

/-! ## C6: planning a tree against itself only emits `DoNothing` -/

/-- C6: every action of `sync_actions t t` is a `DoNothing`. -/
theorem claim6 (t : FileTree) : ∀ a ∈ sync_actions t t, ∃ p r, a = SyncAction.DoNothing p r := by
  intro a ha
  unfold sync_actions at ha
  have ha' := suppress_subset _ _ _ ha
  obtain ⟨pr, hpr, hapr⟩ := List.mem_flatMap.mp ha'
  obtain ⟨p, hpk, rfl⟩ := List.mem_map.mp hpr
  dsimp only at hapr
  have hp : p ∈ filePaths t := by
    rcases mem_zipKeys.mp hpk with h | h <;> exact h
  obtain ⟨e, he, -⟩ := find_of_filePath hp
  rw [he] at hapr
  cases hdir : e.is_directory with
  | true =>
    have hnil : choose_action_for_pair (some e) (some e) = [] := by
      simp [choose_action_for_pair, hdir]
    rw [hnil] at hapr
    cases hapr
  | false =>
    have hone : choose_action_for_pair (some e) (some e) =
        [.DoNothing e.path .noActionNeeded] := by
      simp [choose_action_for_pair, hdir]
    rw [hone] at hapr
    have := List.mem_singleton.mp hapr
    exact ⟨e.path, .noActionNeeded, this⟩

/-- Concrete tree for the C6 witness. -/
def w6t : FileTree := [⟨"index.html", false, "", some 3, some "aa"⟩]

/-- Witness for C6: at a one-file tree, the single emitted action is the
`DoNothing` for that file. -/
theorem claim6_witness :
    SyncAction.DoNothing "index.html" Reason.noActionNeeded ∈ sync_actions w6t w6t ∧
    ∃ p r, SyncAction.DoNothing "index.html" Reason.noActionNeeded = SyncAction.DoNothing p r :=
  ⟨by decide, claim6 w6t (SyncAction.DoNothing "index.html" Reason.noActionNeeded) (by decide)⟩

/-- Witness for C10 at the path `.bashrc`, with `sync_hidden` enabled. -/
theorem claim10_witness :
    file_extension ".bashrc" = "" ∧
    extensionAllowed ⟨false, true, false, none⟩ ⟨".bashrc", false, "", some 1, some "aa"⟩ = false :=
  ⟨(claim10 ".bashrc" "bashrc".data (by decide) (by decide)).1,
   (claim10 ".bashrc" "bashrc".data (by decide) (by decide)).2.1
     ⟨false, true, false, none⟩ ⟨".bashrc", false, "", some 1, some "aa"⟩ rfl rfl⟩

/-! ## C4: per-path action counting -/

/-- Every action decided for the pair at key `q` targets `q`. -/
theorem choose_path_eq (L R : FileTree) (q : String) :
    ∀ a ∈ choose_action_for_pair (find L q) (find R q), a.path = q := by
  intro a ha
  cases hL : find L q with
  | none =>
    cases hR : find R q with
    | none => rw [hL, hR] at ha; cases ha
    | some e =>
      rw [hL, hR] at ha
      have := List.mem_singleton.mp ha
      subst this
      exact find_some_path hR
  | some l =>
    cases hR : find R q with
    | none =>
      rw [hL, hR] at ha
      have := List.mem_singleton.mp ha
      subst this
      exact find_some_path hL
    | some r =>
      rw [hL, hR] at ha
      have hlq := find_some_path hL
      have hrq := find_some_path hR
      simp only [choose_action_for_pair] at ha
      split_ifs at ha with h1 h2 h3 h4 h5
      · cases ha
      · rcases List.mem_cons.mp ha with rfl | ha'
        · exact hlq
        · have := List.mem_singleton.mp ha'
          subst this
          exact hlq
      · have := List.mem_singleton.mp ha
        subst this
        exact hrq
      · have := List.mem_singleton.mp ha
        subst this
        exact hlq
      · have := List.mem_singleton.mp ha
        subst this
        exact hlq
      · have := List.mem_singleton.mp ha
        subst this
        exact hlq

theorem filter_flatMap {α β : Type} (P : β → Bool) (f : α → List β) :
    ∀ l : List α, (l.flatMap f).filter P = l.flatMap (fun x => (f x).filter P)
  | [] => rfl
  | x :: l => by
    rw [List.flatMap_cons, List.flatMap_cons, List.filter_append, filter_flatMap P f l]

theorem flatMap_single {α β : Type} [DecidableEq α] (g : α → List β) :
    ∀ (keys : List α) (p : α), keys.Nodup → p ∈ keys →
      (∀ q ∈ keys, q ≠ p → g q = []) → keys.flatMap g = g p := by
  intro keys
  induction keys with
  | nil => intro p _ hp; cases hp
  | cons k ks ih =>
    intro p hnd hp hz
    rw [List.nodup_cons] at hnd
    rw [List.flatMap_cons]
    by_cases hk : k = p
    · subst hk
      have hnil : ks.flatMap g = [] := by
        rw [List.flatMap_eq_nil_iff]
        intro q hq
        exact hz q (List.mem_cons_of_mem _ hq) (fun he => hnd.1 (he ▸ hq))
      rw [hnil, List.append_nil]
    · rw [hz k (List.mem_cons_self _ _) hk, List.nil_append]
      have hp' : p ∈ ks := by
        rcases List.mem_cons.mp hp with h | h
        · exact absurd h.symm hk
        · exact h
      exact ih p hnd.2 hp' (fun q hq => hz q (List.mem_cons_of_mem _ hq))

theorem stream_eq (L R : FileTree) :
    (zipTrees L R).flatMap (fun pr => choose_action_for_pair pr.1 pr.2) =
      (zipKeys L R).flatMap (fun q => choose_action_for_pair (find L q) (find R q)) := by
  unfold zipTrees
  rw [List.flatMap_map]

/-- Filtering the concatenated action stream down to one key path leaves
exactly that key's decided actions. -/
theorem stream_filter (L R : FileTree) (p : String) (hp : p ∈ zipKeys L R) :
    ((zipTrees L R).flatMap (fun pr => choose_action_for_pair pr.1 pr.2)).filter
        (fun a => a.path == p) =
      choose_action_for_pair (find L p) (find R p) := by
  rw [stream_eq, filter_flatMap]
  have hnd : (zipKeys L R).Nodup :=
    (pairwise_sortedUnique _).imp (fun h => ne_of_lt h)
  have hz : ∀ q ∈ zipKeys L R, q ≠ p →
      (choose_action_for_pair (find L q) (find R q)).filter (fun a => a.path == p) = [] := by
    intro q hq hqp
    rw [List.filter_eq_nil_iff]
    intro a ha
    rw [beq_eq_false_iff_ne.mpr]
    · simp
    · rw [choose_path_eq L R q a ha]
      exact hqp
  rw [flatMap_single _ (zipKeys L R) p hnd hp hz]
  exact List.filter_eq_self.mpr
    (fun a ha => beq_iff_eq.mpr (choose_path_eq L R p a ha))

/-- When no `DeleteRemote` of the stream satisfies the filter, the
suppression pass does not change the filtered output. -/
theorem suppress_filter_no_delete_matches (P : SyncAction → Bool) :
    ∀ (l : List SyncAction) (d : List String),
      (∀ q r, SyncAction.DeleteRemote q r ∈ l → P (.DeleteRemote q r) = false) →
      (suppressDeletes l d).filter P = l.filter P := by
  intro l
  induction l with
  | nil => intro d _; rfl
  | cons x rest ih =>
    intro d hnd
    have hrest : ∀ q r, SyncAction.DeleteRemote q r ∈ rest →
        P (.DeleteRemote q r) = false :=
      fun q r hq => hnd q r (List.mem_cons_of_mem _ hq)
    cases x with
    | DeleteRemote p r =>
      have hPd : P (.DeleteRemote p r) = false := hnd p r (List.mem_cons_self _ _)
      rw [suppressDeletes_delete]
      split_ifs with hc
      · rw [ih d hrest]
        simp [List.filter_cons, hPd]
      · have hih := ih (d ++ [p]) hrest
        simp [List.filter_cons, hPd, hih]
    | DoNothing p r =>
      rw [suppressDeletes_doNothing, List.filter_cons, List.filter_cons, ih d hrest]
    | UpdateRemote p r =>
      rw [suppressDeletes_update, List.filter_cons, List.filter_cons, ih d hrest]

/-- When the stream holds exactly one action targeting `p` and it is a
`DeleteRemote`, the pass either keeps it, or drops it because some path
`d0` with `p` under `d0 ++ "/"` was already recorded — initially or by an
emitted `DeleteRemote` of the output. -/
theorem suppress_single_delete (p : String) (rr : Reason) :
    ∀ (l : List SyncAction) (d : List String),
      l.filter (fun a => a.path == p) = [SyncAction.DeleteRemote p rr] →
      ((suppressDeletes l d).filter (fun a => a.path == p) =
          [SyncAction.DeleteRemote p rr] ∨
       ((suppressDeletes l d).filter (fun a => a.path == p) = [] ∧
        ∃ d0, strStartsWith p (d0 ++ "/") = true ∧
          (d0 ∈ d ∨ ∃ r0, SyncAction.DeleteRemote d0 r0 ∈ suppressDeletes l d))) := by
  intro l
  induction l with
  | nil => intro d h; cases h
  | cons x rest ih =>
    intro d hf
    by_cases hx : x.path = p
    · have hPx : (x.path == p) = true := beq_iff_eq.mpr hx
      rw [List.filter_cons, if_pos hPx] at hf
      have hx_eq : x = SyncAction.DeleteRemote p rr := by injection hf
      have hrest_nil : rest.filter (fun a => a.path == p) = [] := by injection hf
      have htail_nil : ∀ d', (suppressDeletes rest d').filter (fun a => a.path == p) = [] := by
        intro d'
        rw [List.filter_eq_nil_iff]
        intro a ha
        exact List.filter_eq_nil_iff.mp hrest_nil a (suppress_subset _ _ _ ha)
      subst hx_eq
      rw [suppressDeletes_delete]
      split_ifs with hc
      · right
        refine ⟨htail_nil d, ?_⟩
        obtain ⟨d0, hd0, hpre⟩ := List.any_eq_true.mp hc
        exact ⟨d0, hpre, Or.inl hd0⟩
      · left
        rw [List.filter_cons, if_pos (by simp [SyncAction.path]), htail_nil (d ++ [p])]
    · have hPx : (x.path == p) = false := beq_eq_false_iff_ne.mpr hx
      rw [List.filter_cons, if_neg (by simp [hPx])] at hf
      cases x with
      | DeleteRemote q r0 =>
        rw [suppressDeletes_delete]
        split_ifs with hc
        · exact ih d hf
        · rcases ih (d ++ [q]) hf with hkeep | ⟨hnil, d0, hpre, hcase⟩
          · left
            rw [List.filter_cons, if_neg (by simp [hPx]), hkeep]
          · right
            refine ⟨by rw [List.filter_cons, if_neg (by simp [hPx])]; exact hnil,
              d0, hpre, ?_⟩
            rcases hcase with hd0 | ⟨r1, hmem⟩
            · rcases List.mem_append.mp hd0 with h1 | h1
              · exact Or.inl h1
              · right
                have hd0q : d0 = q := List.mem_singleton.mp h1
                subst hd0q
                exact ⟨r0, List.mem_cons_self _ _⟩
            · exact Or.inr ⟨r1, List.mem_cons_of_mem _ hmem⟩
      | DoNothing q r0 =>
        rw [suppressDeletes_doNothing]
        rcases ih d hf with hkeep | ⟨hnil, d0, hpre, hcase⟩
        · left
          rw [List.filter_cons, if_neg (by simp [hPx]), hkeep]
        · right
          refine ⟨by rw [List.filter_cons, if_neg (by simp [hPx])]; exact hnil,
            d0, hpre, ?_⟩
          rcases hcase with hd0 | ⟨r1, hmem⟩
          · exact Or.inl hd0
          · exact Or.inr ⟨r1, List.mem_cons_of_mem _ hmem⟩
      | UpdateRemote q r0 =>
        rw [suppressDeletes_update]
        rcases ih d hf with hkeep | ⟨hnil, d0, hpre, hcase⟩
        · left
          rw [List.filter_cons_of_neg (by simp [hPx]), hkeep]
        · right
          refine ⟨by rw [List.filter_cons_of_neg (by simp [hPx])]; exact hnil,
            d0, hpre, ?_⟩
          rcases hcase with hd0 | ⟨r1, hmem⟩
          · exact Or.inl hd0
          · exact Or.inr ⟨r1, List.mem_cons_of_mem _ hmem⟩

/-- C4 counterexample, local side: one file `d`. -/
def c4L : FileTree := [⟨"d", false, "", some 1, some "aa"⟩]

/-- C4 counterexample, remote side: a directory `d` holding a file `d/x`. -/
def c4R : FileTree := [⟨"d", true, "", none, none⟩, ⟨"d/x", false, "", some 2, some "bb"⟩]

/-- C4, refuted as stated: `d/x` is a file path present only in the remote
tree, yet the plan emits no action targeting it — its `DeleteRemote` is
suppressed by the emitted deletion of the ancestor `d` (a file locally, a
directory remotely). -/
theorem claim4_counterexample :
    ("d/x" ∈ filePaths c4R) ∧ (∀ e ∈ c4L, e.path ≠ "d/x") ∧
    (sync_actions c4L c4R).filter (fun a => a.path == "d/x") = [] ∧
    sync_actions c4L c4R =
      [SyncAction.DeleteRemote "d" Reason.pathIsDirectoryInRemote,
       SyncAction.UpdateRemote "d" Reason.pathIsDirectoryInRemote] := by decide

/-- C4, amended: a file path present only locally gets exactly one
action, an `UpdateRemote`; a file path `p` present only remotely gets
exactly one `DeleteRemote` — unless the plan emitted a `DeleteRemote`
for some `d0` with `p` under `d0 ++ "/"`, in which case `p` gets no
action at all. -/
theorem claim4_amended (L R : FileTree) (p : String) :
    (p ∈ filePaths L → (∀ e ∈ R, e.path ≠ p) →
      (sync_actions L R).filter (fun a => a.path == p) =
        [SyncAction.UpdateRemote p Reason.fileMissingInRemote]) ∧
    (p ∈ filePaths R → (∀ e ∈ L, e.path ≠ p) →
      ((sync_actions L R).filter (fun a => a.path == p) =
          [SyncAction.DeleteRemote p Reason.fileMissingLocally] ∨
       ((sync_actions L R).filter (fun a => a.path == p) = [] ∧
        ∃ d0 r0, SyncAction.DeleteRemote d0 r0 ∈ sync_actions L R ∧
          strStartsWith p (d0 ++ "/") = true))) := by
  constructor
  · intro hpL hnR
    obtain ⟨e, he, hep⟩ := find_of_filePath hpL
    have hfR : find R p = none := find_eq_none_iff.mpr hnR
    have hkey : p ∈ zipKeys L R := mem_zipKeys.mpr (Or.inl hpL)
    have hchoose : choose_action_for_pair (find L p) (find R p) =
        [.UpdateRemote p .fileMissingInRemote] := by
      rw [he, hfR]
      show [SyncAction.UpdateRemote e.path Reason.fileMissingInRemote] = _
      rw [hep]
    have hstream := stream_filter L R p hkey
    rw [hchoose] at hstream
    unfold sync_actions
    rw [suppress_filter_no_delete_matches _ _ _ ?hnd, hstream]
    case hnd =>
      intro q r hq
      by_cases hqp : q = p
      · subst hqp
        have hmem : SyncAction.DeleteRemote q r ∈
            (((zipTrees L R).flatMap (fun pr => choose_action_for_pair pr.1 pr.2)).filter
              (fun a => a.path == q)) :=
          List.mem_filter.mpr ⟨hq, by simp [SyncAction.path]⟩
        rw [hstream] at hmem
        have := List.mem_singleton.mp hmem
        cases this
      · show ((SyncAction.DeleteRemote q r).path == p) = false
        exact beq_eq_false_iff_ne.mpr hqp
  · intro hpR hnL
    obtain ⟨e, he, hep⟩ := find_of_filePath hpR
    have hfL : find L p = none := find_eq_none_iff.mpr hnL
    have hkey : p ∈ zipKeys L R := mem_zipKeys.mpr (Or.inr hpR)
    have hchoose : choose_action_for_pair (find L p) (find R p) =
        [.DeleteRemote p .fileMissingLocally] := by
      rw [hfL, he]
      show [SyncAction.DeleteRemote e.path Reason.fileMissingLocally] = _
      rw [hep]
    have hstream := stream_filter L R p hkey
    rw [hchoose] at hstream
    unfold sync_actions
    rcases suppress_single_delete p .fileMissingLocally _ [] hstream with hk | ⟨hn, d0, hpre, hcase⟩
    · exact Or.inl hk
    · refine Or.inr ⟨hn, d0, ?_⟩
      rcases hcase with hd0 | ⟨r0, hmem⟩
      · cases hd0
      · exact ⟨r0, hmem, hpre⟩

end NeocitiesSync
